import Mathlib

/-!
# dolfin: structured interval mesh generation

A shallow embedding of `IntervalMesh::build` (dolfin/generation/IntervalMesh.cpp), in two
readings of the same code.

* `dolfin.build` reads `double` values exactly, as rationals, and `std::size_t` values as
  natural numbers.  It carries the statements about the error order, the shape of the
  arrays and the connectivity entries.
* `dolfin.binary64.build` reads `double` as IEEE 754 binary64 (`Double`: round to nearest,
  ties to even, every operation rounded on its own, overflow to infinity, NaN) and computes
  the row count `nx + 1` modulo `2^64`.  It carries the statements about the stored
  coordinates and about which intervals the checks accept.  For `nx = 2^64 - 1` the
  condition `ix <= nx` of the vertex loop holds for every `size_t`; the statements about a
  finished buffer assume `nx < 2^64 - 1`.

In both readings:

* The connectivity array has scalar type `int`; a `size_t` written into it is converted
  to a signed 32-bit value (`int_of_size_t`).
* `DOLFIN_EPS` comes from dolfin/common/constants.h and is a parameter of `build`.
* `dolfin_error` raises: the call to `build` ends there with the error.
-/

namespace dolfin

/-- The failures of mesh generation and distribution.  The first three are the three calls
of `dolfin_error` in `IntervalMesh::build`, in source order:
"Length of interval is zero", "Length of interval is negative" and
"Number of points on interval is (%d), it must be at least 1". -/
inductive Error where
  | InvalidDimension
  | InvalidOrdering
  | InvalidSubdivisionCount
  | InvalidTopology
  deriving DecidableEq, Repr

/-- A dense matrix with run-time dimensions, as
`Eigen::Matrix<T, Eigen::Dynamic, Eigen::Dynamic, Eigen::RowMajor>`: the dimensions and the
coefficient accessor.  Coefficients outside the dimensions carry no meaning. -/
structure EigenMatrix (α : Type) where
  rows : Nat
  cols : Nat
  coeff : Nat → Nat → α

namespace EigenMatrix

/-- The constructor `Matrix(rows, cols)`; the fresh coefficients are read as zero. -/
def alloc {α : Type} [Zero α] (rows cols : Nat) : EigenMatrix α :=
  { rows := rows, cols := cols, coeff := fun _ _ => 0 }

/-- The assignment `m(i, j) = v`.  A write outside the dimensions leaves the matrix as it is. -/
def set {α : Type} (m : EigenMatrix α) (i j : Nat) (v : α) : EigenMatrix α :=
  if i < m.rows ∧ j < m.cols then
    { m with coeff := fun r c => if r = i ∧ c = j then v else m.coeff r c }
  else m

/-- Row `i` of the matrix, as the list of its `cols` coefficients. -/
def row {α : Type} (m : EigenMatrix α) (i : Nat) : List α :=
  (List.range m.cols).map (m.coeff i)

/-- All rows of the matrix, in order. -/
def toRows {α : Type} (m : EigenMatrix α) : List (List α) :=
  (List.range m.rows).map m.row

end EigenMatrix

/-- Conversion of a `std::size_t` to `int` (32-bit two's complement), as it happens when
the comma initialiser of an `int` matrix receives `ix` and `ix + 1`. -/
def int_of_size_t (v : Nat) : Int :=
  if v % 2 ^ 32 < 2 ^ 31 then ((v % 2 ^ 32 : Nat) : Int) else ((v % 2 ^ 32 : Nat) : Int) - 2 ^ 32

/-- The Geometry/Topology Buffer: the two arrays given to the `Mesh` constructor. -/
structure Buffer where
  geom : EigenMatrix ℚ
  topo : EigenMatrix Int

/-- How a call of `IntervalMesh::build` ends on one participant: `raised e` when
`dolfin_error` was called, `distributed mesh` when `Mesh mesh(comm, interval, geom, topo)`
was constructed and `MeshPartitioning::build_distributed_mesh(mesh)` was entered. -/
inductive Outcome where
  | raised (e : Error)
  | distributed (mesh : Buffer)

/-- The loop `for (ix = 0; ix <= nx; ix++) geom(ix, 0) = a + ab * ix`. -/
def create_vertices (nx : Nat) (a ab : ℚ) (geom : EigenMatrix ℚ) : EigenMatrix ℚ :=
  (List.range (nx + 1)).foldl (fun g ix => g.set ix 0 (a + ab * (ix : ℚ))) geom

/-- The loop `for (ix = 0; ix < nx; ix++) topo.row(ix) << ix, ix + 1`. -/
def create_intervals (nx : Nat) (topo : EigenMatrix Int) : EigenMatrix Int :=
  (List.range nx).foldl
    (fun t ix => (t.set ix 0 (int_of_size_t ix)).set ix 1 (int_of_size_t (ix + 1))) topo

/-- The function `IntervalMesh::build(comm, nx, x)` on the participant of rank
`rank = MPI::rank(comm)`. -/
def build (DOLFIN_EPS : ℚ) (rank : Nat) (nx : Nat) (x : ℚ × ℚ) : Outcome :=
  if rank ≠ 0 then
    let geom : EigenMatrix ℚ := EigenMatrix.alloc 0 1
    let topo : EigenMatrix Int := EigenMatrix.alloc 0 2
    Outcome.distributed { geom := geom, topo := topo }
  else
    let a := x.1
    let b := x.2
    let ab := (b - a) / (nx : ℚ)
    if |a - b| < DOLFIN_EPS then
      Outcome.raised Error.InvalidDimension
    else if b < a then
      Outcome.raised Error.InvalidOrdering
    else if nx < 1 then
      Outcome.raised Error.InvalidSubdivisionCount
    else
      let geom := create_vertices nx a ab (EigenMatrix.alloc (nx + 1) 1)
      let topo := create_intervals nx (EigenMatrix.alloc nx 2)
      Outcome.distributed { geom := geom, topo := topo }

/-- The buffer that `build` fills on rank 0 once the three checks have passed: the two
matrices after the two loops. -/
def interval_buffer (nx : Nat) (x : ℚ × ℚ) : Buffer :=
  { geom := create_vertices nx x.1 ((x.2 - x.1) / (nx : ℚ)) (EigenMatrix.alloc (nx + 1) 1)
    topo := create_intervals nx (EigenMatrix.alloc nx 2) }

/-- Cell `c` of the buffer references vertex `v`: `c` is a row of the connectivity array and
`v` is one of its entries. -/
def Buffer.references (mesh : Buffer) (c v : Nat) : Prop :=
  c < mesh.topo.rows ∧ (v : Int) ∈ mesh.topo.row c

instance (mesh : Buffer) (c v : Nat) : Decidable (mesh.references c v) := by
  unfold Buffer.references; infer_instance

/-! ## binary64 arithmetic

The values and operations of the type `double`: IEEE 754 binary64 with the default rounding,
to nearest with ties to even.  A finite value is the rational number it denotes; the two
zeros are not told apart (the only zero `build` divides by is the conversion of `nx = 0`,
which is `+0.0`). -/

/-- A value of type `double`: a finite number, an infinity or a NaN. -/
inductive Double where
  | finite (q : ℚ)
  | inf (negative : Bool)
  | nan
  deriving DecidableEq, Repr

namespace Double

/-- The natural number nearest to a nonnegative rational, a tie going to the even one. -/
def round_half_even (r : ℚ) : ℕ :=
  if r - (⌊r⌋₊ : ℚ) < 1 / 2 then ⌊r⌋₊
  else if 1 / 2 < r - (⌊r⌋₊ : ℚ) then ⌊r⌋₊ + 1
  else if ⌊r⌋₊ % 2 = 0 then ⌊r⌋₊ else ⌊r⌋₊ + 1

/-- The binary exponent of a positive magnitude, `⌊log₂ m⌋`, held at `-1022` below the
normal range. -/
def exponent (m : ℚ) : ℤ :=
  max (Int.log 2 m) (-1022)

/-- The spacing of the binary64 values around a magnitude: 53 significant bits. -/
def quantum (m : ℚ) : ℚ :=
  (2 : ℚ) ^ (exponent m - 52)

/-- The multiple of the quantum nearest to a nonnegative magnitude, ties to even. -/
def round_magnitude (m : ℚ) : ℚ :=
  (round_half_even (m / quantum m) : ℚ) * quantum m

/-- The binary64 value of a rational result: rounded to nearest, and an infinity when the
rounded magnitude reaches `2^1024`. -/
def nearest (q : ℚ) : Double :=
  if (2 : ℚ) ^ 1024 ≤ round_magnitude |q| then inf (decide (q < 0))
  else finite (if q < 0 then -round_magnitude |q| else round_magnitude |q|)

/-- Unary minus. -/
def neg : Double → Double
  | finite q => finite (-q)
  | inf negative => inf (!negative)
  | nan => nan

/-- The function `std::abs`. -/
def abs : Double → Double
  | finite q => finite |q|
  | inf _ => inf false
  | nan => nan

/-- The comparison `x < y`; false when an operand is NaN. -/
def lt : Double → Double → Bool
  | finite p, finite q => decide (p < q)
  | finite _, inf negative => !negative
  | inf negative, finite _ => negative
  | inf n1, inf n2 => n1 && !n2
  | _, _ => false

/-- The comparison `x <= y`; false when an operand is NaN. -/
def le : Double → Double → Bool
  | finite p, finite q => decide (p ≤ q)
  | finite _, inf negative => !negative
  | inf negative, finite _ => negative
  | inf n1, inf n2 => n1 || !n2
  | _, _ => false

/-- The sum `x + y`. -/
def add : Double → Double → Double
  | finite p, finite q => nearest (p + q)
  | finite _, inf negative => inf negative
  | inf negative, finite _ => inf negative
  | inf n1, inf n2 => if n1 = n2 then inf n1 else nan
  | _, _ => nan

/-- The difference `x - y`. -/
def sub (x y : Double) : Double :=
  add x (neg y)

/-- The product `x * y`. -/
def mul : Double → Double → Double
  | finite p, finite q => nearest (p * q)
  | finite p, inf negative => if p = 0 then nan else inf (decide (p < 0) != negative)
  | inf negative, finite q => if q = 0 then nan else inf (negative != decide (q < 0))
  | inf n1, inf n2 => inf (n1 != n2)
  | _, _ => nan

/-- The quotient `x / y`; a zero divisor is `+0.0`. -/
def div : Double → Double → Double
  | finite p, finite q =>
    if q = 0 then (if p = 0 then nan else inf (decide (p < 0))) else nearest (p / q)
  | finite _, inf _ => finite 0
  | inf negative, finite q => inf (negative != decide (q < 0))
  | _, _ => nan

/-- The conversion `static_cast<double>(n)` of a `std::size_t`. -/
def of_size_t (n : Nat) : Double :=
  nearest (n : ℚ)

/-- A value that the type `double` has: an infinity, a NaN, or a finite number that
rounding leaves as it is. -/
def is_binary64 : Double → Prop
  | finite q => nearest q = finite q
  | _ => True

end Double

instance : Zero Double := ⟨Double.finite 0⟩

/-! ## The binary64 reading of `IntervalMesh::build` -/

namespace binary64

/-- The Geometry/Topology Buffer with `double` coordinates. -/
structure Buffer where
  geom : EigenMatrix Double
  topo : EigenMatrix Int

/-- How a call of `IntervalMesh::build` ends on one participant: `raised e` when
`dolfin_error` was called, `distributed mesh` when `Mesh mesh(comm, interval, geom, topo)`
was constructed and `MeshPartitioning::build_distributed_mesh(mesh)` was entered. -/
inductive Outcome where
  | raised (e : Error)
  | distributed (mesh : Buffer)

/-- The loop `for (ix = 0; ix <= nx; ix++) geom(ix, 0) = a + ab * static_cast<double>(ix)`. -/
def create_vertices (nx : Nat) (a ab : Double) (geom : EigenMatrix Double) :
    EigenMatrix Double :=
  (List.range (nx + 1)).foldl
    (fun g ix => g.set ix 0 (Double.add a (Double.mul ab (Double.of_size_t ix)))) geom

/-- The statements of `IntervalMesh::build` on rank 0 that follow
`const double ab = (b - a) / static_cast<double>(nx)`, with the value of `ab` given: the
three checks, the two matrices (the row count `nx + 1` is a `size_t`) and the two loops. -/
def build_after_quotient (DOLFIN_EPS : Double) (nx : Nat) (a b ab : Double) : Outcome :=
  if Double.lt (Double.abs (Double.sub a b)) DOLFIN_EPS then
    Outcome.raised Error.InvalidDimension
  else if Double.lt b a then
    Outcome.raised Error.InvalidOrdering
  else if nx < 1 then
    Outcome.raised Error.InvalidSubdivisionCount
  else
    let geom := create_vertices nx a ab (EigenMatrix.alloc ((nx + 1) % 2 ^ 64) 1)
    let topo := create_intervals nx (EigenMatrix.alloc nx 2)
    Outcome.distributed { geom := geom, topo := topo }

/-- The function `IntervalMesh::build(comm, nx, x)` on the participant of rank
`rank = MPI::rank(comm)`, in binary64.  At `nx = 2^64 - 1` the geometry array of the source
has `nx + 1 = 0` rows and its vertex loop never ends (`ix <= nx` holds for every `size_t`);
the value of this definition at that `nx` carries no meaning and no statement uses it. -/
def build (DOLFIN_EPS : Double) (rank : Nat) (nx : Nat) (x : Double × Double) : Outcome :=
  if rank ≠ 0 then
    let geom : EigenMatrix Double := EigenMatrix.alloc 0 1
    let topo : EigenMatrix Int := EigenMatrix.alloc 0 2
    Outcome.distributed { geom := geom, topo := topo }
  else
    let a := x.1
    let b := x.2
    let ab := Double.div (Double.sub b a) (Double.of_size_t nx)
    if Double.lt (Double.abs (Double.sub a b)) DOLFIN_EPS then
      Outcome.raised Error.InvalidDimension
    else if Double.lt b a then
      Outcome.raised Error.InvalidOrdering
    else if nx < 1 then
      Outcome.raised Error.InvalidSubdivisionCount
    else
      let geom := create_vertices nx a ab (EigenMatrix.alloc ((nx + 1) % 2 ^ 64) 1)
      let topo := create_intervals nx (EigenMatrix.alloc nx 2)
      Outcome.distributed { geom := geom, topo := topo }

/-- The interval passes the two interval checks of `build`: neither
`std::abs(a - b) < DOLFIN_EPS` nor `b < a` holds. -/
def accepted (DOLFIN_EPS : Double) (x : Double × Double) : Bool :=
  !(Double.lt (Double.abs (Double.sub x.1 x.2)) DOLFIN_EPS) && !(Double.lt x.2 x.1)

/-- The step `ab` that `build` computes. -/
def step (nx : Nat) (x : Double × Double) : Double :=
  Double.div (Double.sub x.2 x.1) (Double.of_size_t nx)

/-- The coordinate that the vertex loop stores for vertex `ix`. -/
def vertex (nx : Nat) (x : Double × Double) (ix : Nat) : Double :=
  Double.add x.1 (Double.mul (step nx x) (Double.of_size_t ix))

/-- A buffer is partially populated when it has vertices without cells or cells without
vertices. -/
def Buffer.partially_populated (mesh : Buffer) : Prop :=
  (mesh.geom.rows = 0 ∧ mesh.topo.rows ≠ 0) ∨ (mesh.geom.rows ≠ 0 ∧ mesh.topo.rows = 0)

instance (mesh : Buffer) : Decidable mesh.partially_populated := by
  unfold Buffer.partially_populated; infer_instance

/-- The binary64 value of the literal `3.0e-16`, the tolerance of the concrete inputs. -/
def eps_3e_16 : Double :=
  Double.finite (6084722881095501 / 2 ^ 104)

end binary64

/-! ## Distribution and submesh extraction

`MeshPartitioning::build_distributed_mesh` (dolfin/mesh/MeshPartitioning.cpp) and
`SubMesh::init` (dolfin/mesh/SubMesh.cpp) are not among the source files; the definitions
of this section follow the specification of the Collective Mesh Distributor and of the
Submesh Extractor. -/

/-- Modelled from the spec: the Mesh Handle (`Mesh`, dolfin/mesh/Mesh.h, is missing): the local
geometry and topology of one participant, the global id of each local vertex and the rank of
the participant that owns it. -/
structure MeshHandle where
  local_vertices : List (List ℚ)
  local_cells : List (List Nat)
  global_vertex_id : List Nat
  vertex_owner_rank : List Nat

/-- Modelled from the spec: the test the distributor runs before any communication
(MeshPartitioning.cpp is missing), the buffer invariant "every index appearing in `cells`
references a valid entry of `vertices`". -/
def Buffer.valid_topology (mesh : Buffer) : Bool :=
  mesh.topo.toRows.all (fun cell =>
    cell.all (fun v => decide (0 ≤ v ∧ v < (mesh.geom.rows : Int))))

/-- The vertices of cell `c` of the buffer. -/
def Buffer.cell (mesh : Buffer) (c : Nat) : List Nat :=
  (mesh.topo.row c).map Int.toNat

namespace MeshPartitioning

end MeshPartitioning

/-- Modelled from the spec: the result of submesh extraction (SubMesh.cpp is missing): the
new buffer, vertices and cells renumbered from zero, and the back-reference table from new
vertex indices to the vertex indices of the parent. -/
structure SubMeshData where
  vertices : List (List ℚ)
  cells : List (List Nat)
  parent_vertex_indices : List Nat
  deriving DecidableEq

namespace SubMesh

/-- Modelled from the spec: the distinct vertices referenced by the selected cells, in the
order first encountered (SubMesh.cpp is missing). -/
def collect_vertices (cells : List (List Nat)) : List Nat :=
  cells.flatten.foldl (fun seen v => if v ∈ seen then seen else seen ++ [v]) []

/-- Modelled from the spec: `SubMesh::init(mesh, sub_domains, sub_domain)` (SubMesh.cpp is
missing): select the cells whose marker equals `sub_domain`, collect their vertices,
renumber, and emit the new buffer with the back-reference table.  A selected cell that
references a vertex the parent does not have is `InvalidTopology`. -/
def init (mesh : MeshHandle) (sub_domains : List Nat) (sub_domain : Nat) :
    Except Error SubMeshData :=
  let selected := (List.range mesh.local_cells.length).filter
    (fun c => decide (sub_domains[c]? = some sub_domain))
  let cells := selected.map (fun c => mesh.local_cells.getD c [])
  let parent_vertex_indices := collect_vertices cells
  if parent_vertex_indices.all (fun v => decide (v < mesh.local_vertices.length)) then
    Except.ok
      { vertices := parent_vertex_indices.map (fun v => mesh.local_vertices.getD v [])
        cells := cells.map (fun cell => cell.map (fun v => parent_vertex_indices.indexOf v))
        parent_vertex_indices := parent_vertex_indices }
  else
    Except.error Error.InvalidTopology

/-- Modelled from the spec: the constructor `SubMesh(mesh, sub_domains, sub_domain)`
(SubMesh.cpp is missing), marker mode (ii): a marker array matched against a target value. -/
def of_mesh_function (mesh : MeshHandle) (sub_domains : List Nat) (sub_domain : Nat) :
    Except Error SubMeshData :=
  init mesh sub_domains sub_domain

/-- Modelled from the spec: the constructor `SubMesh(mesh, sub_domain)` (SubMesh.cpp is
missing), marker mode (i): the predicate `inside` is evaluated on the vertex coordinates of
each cell, the cells it holds for are marked 1 and all others 0, and the marked cells are
extracted. -/
def of_sub_domain (mesh : MeshHandle) (inside : List (List ℚ) → Bool) :
    Except Error SubMeshData :=
  init mesh
    (mesh.local_cells.map (fun cell =>
      if inside (cell.map (fun v => mesh.local_vertices.getD v [])) then 1 else 0)) 1

end SubMesh

/-! ## The two loops -/

theorem EigenMatrix.set_rows {α : Type} (m : EigenMatrix α) (i j : Nat) (v : α) :
    (m.set i j v).rows = m.rows := by
  unfold EigenMatrix.set; split <;> rfl

theorem EigenMatrix.set_cols {α : Type} (m : EigenMatrix α) (i j : Nat) (v : α) :
    (m.set i j v).cols = m.cols := by
  unfold EigenMatrix.set; split <;> rfl

theorem EigenMatrix.set_coeff {α : Type} (m : EigenMatrix α) (i j : Nat) (v : α) (r c : Nat)
    (hi : i < m.rows) (hj : j < m.cols) :
    (m.set i j v).coeff r c = if r = i ∧ c = j then v else m.coeff r c := by
  unfold EigenMatrix.set; rw [if_pos ⟨hi, hj⟩]

/-- The state of the vertex loop after its first `k` iterations. -/
theorem create_vertices_steps (a ab : ℚ) (g : EigenMatrix ℚ) (hc : 0 < g.cols) (k : Nat) :
    k ≤ g.rows →
    ((List.range k).foldl (fun g ix => g.set ix 0 (a + ab * (ix : ℚ))) g).rows = g.rows ∧
    ((List.range k).foldl (fun g ix => g.set ix 0 (a + ab * (ix : ℚ))) g).cols = g.cols ∧
    ∀ r c, ((List.range k).foldl (fun g ix => g.set ix 0 (a + ab * (ix : ℚ))) g).coeff r c =
      if r < k ∧ c = 0 then a + ab * (r : ℚ) else g.coeff r c := by
  induction k with
  | zero => intro _; simp
  | succ k ih =>
    intro hk
    obtain ⟨h1, h2, h3⟩ := ih (by omega)
    rw [List.range_succ, List.foldl_append]
    simp only [List.foldl_cons, List.foldl_nil]
    refine ⟨by rw [EigenMatrix.set_rows, h1], by rw [EigenMatrix.set_cols, h2], ?_⟩
    intro r c
    rw [EigenMatrix.set_coeff _ _ _ _ _ _ (by omega) (by omega), h3]
    by_cases hr : r = k
    · subst hr
      by_cases hc0 : c = 0
      · simp [hc0]
      · simp [hc0]
    · have : (r < k + 1) ↔ (r < k) := by omega
      simp [hr, this]

/-- The state of the cell loop after its first `k` iterations. -/
theorem create_intervals_steps (t : EigenMatrix Int) (hc : t.cols = 2) (k : Nat) :
    k ≤ t.rows →
    ((List.range k).foldl
      (fun t ix => (t.set ix 0 (int_of_size_t ix)).set ix 1 (int_of_size_t (ix + 1))) t).rows
        = t.rows ∧
    ((List.range k).foldl
      (fun t ix => (t.set ix 0 (int_of_size_t ix)).set ix 1 (int_of_size_t (ix + 1))) t).cols
        = t.cols ∧
    ∀ r c, ((List.range k).foldl
      (fun t ix => (t.set ix 0 (int_of_size_t ix)).set ix 1 (int_of_size_t (ix + 1))) t).coeff r c
        = if r < k ∧ c = 0 then int_of_size_t r
          else if r < k ∧ c = 1 then int_of_size_t (r + 1) else t.coeff r c := by
  induction k with
  | zero => intro _; simp
  | succ k ih =>
    intro hk
    obtain ⟨h1, h2, h3⟩ := ih (by omega)
    rw [List.range_succ, List.foldl_append]
    simp only [List.foldl_cons, List.foldl_nil]
    refine ⟨by rw [EigenMatrix.set_rows, EigenMatrix.set_rows, h1],
      by rw [EigenMatrix.set_cols, EigenMatrix.set_cols, h2], ?_⟩
    intro r c
    rw [EigenMatrix.set_coeff _ _ _ _ _ _ (by rw [EigenMatrix.set_rows]; omega)
        (by rw [EigenMatrix.set_cols]; omega),
      EigenMatrix.set_coeff _ _ _ _ _ _ (by omega) (by omega), h3]
    by_cases hr : r = k
    · subst hr
      by_cases hc0 : c = 0
      · simp [hc0]
      · by_cases hc1 : c = 1
        · simp [hc1]
        · simp [hc0, hc1]
    · have : (r < k + 1) ↔ (r < k) := by omega
      simp [hr, this]

/-- A `size_t` below `2^31` is converted to `int` unchanged. -/
theorem int_of_size_t_small (v : Nat) (h : v < 2 ^ 31) : int_of_size_t v = (v : Int) := by
  unfold int_of_size_t
  have h1 : v % 2 ^ 32 = v := Nat.mod_eq_of_lt (by omega)
  rw [h1, if_pos h]

/-- The vertex array after the vertex loop of `build`. -/
theorem create_vertices_spec (nx : Nat) (a ab : ℚ) :
    (create_vertices nx a ab (EigenMatrix.alloc (nx + 1) 1)).rows = nx + 1 ∧
    (create_vertices nx a ab (EigenMatrix.alloc (nx + 1) 1)).cols = 1 ∧
    ∀ i, i ≤ nx →
      (create_vertices nx a ab (EigenMatrix.alloc (nx + 1) 1)).coeff i 0 = a + ab * (i : ℚ) := by
  obtain ⟨h1, h2, h3⟩ := create_vertices_steps a ab (EigenMatrix.alloc (nx + 1) 1)
    (by simp [EigenMatrix.alloc]) (nx + 1) (by simp [EigenMatrix.alloc])
  refine ⟨h1, h2, ?_⟩
  intro i hi
  have : i < nx + 1 := by omega
  unfold create_vertices
  rw [h3]; simp [this]

/-- The connectivity array after the cell loop of `build`. -/
theorem create_intervals_spec (nx : Nat) :
    (create_intervals nx (EigenMatrix.alloc nx 2)).rows = nx ∧
    (create_intervals nx (EigenMatrix.alloc nx 2)).cols = 2 ∧
    ∀ i, i < nx →
      (create_intervals nx (EigenMatrix.alloc nx 2)).coeff i 0 = int_of_size_t i ∧
      (create_intervals nx (EigenMatrix.alloc nx 2)).coeff i 1 = int_of_size_t (i + 1) := by
  obtain ⟨h1, h2, h3⟩ := create_intervals_steps (EigenMatrix.alloc nx 2)
    (by simp [EigenMatrix.alloc]) nx (by simp [EigenMatrix.alloc])
  refine ⟨h1, h2, ?_⟩
  intro i hi
  unfold create_intervals
  rw [h3, h3]; simp [hi]

/-- A row of a matrix with two columns. -/
theorem EigenMatrix.row_two {α : Type} (m : EigenMatrix α) (h : m.cols = 2) (i : Nat) :
    m.row i = [m.coeff i 0, m.coeff i 1] := by
  unfold EigenMatrix.row; rw [h]; rfl

/-- On ranks other than 0 `build` validates nothing: it hands the empty buffer to the
distributor, whatever the parameters. -/
theorem build_nonroot (eps : ℚ) (rank nx : Nat) (x : ℚ × ℚ) (h : rank ≠ 0) :
    build eps rank nx x =
      Outcome.distributed { geom := EigenMatrix.alloc 0 1, topo := EigenMatrix.alloc 0 2 } := by
  unfold build; rw [if_pos h]

/-- On rank 0, parameters that pass the three checks reach the two loops. -/
theorem build_root_accepted (eps : ℚ) (nx : Nat) (x : ℚ × ℚ)
    (heps : 0 < eps) (hnx : 1 ≤ nx) (hx : eps ≤ x.2 - x.1) :
    build eps 0 nx x = Outcome.distributed
      { geom := create_vertices nx x.1 ((x.2 - x.1) / (nx : ℚ)) (EigenMatrix.alloc (nx + 1) 1),
        topo := create_intervals nx (EigenMatrix.alloc nx 2) } := by
  have hle : x.1 ≤ x.2 := by linarith
  have habs : ¬ (|x.1 - x.2| < eps) := by
    rw [abs_sub_comm, abs_of_nonneg (by linarith)]; linarith
  have hlt : ¬ (x.2 < x.1) := by linarith
  have hn : ¬ (nx < 1) := by omega
  unfold build
  simp only [ne_eq, not_true_eq_false, if_false, habs, hlt, hn]

/-! ## Claims -/

/-- C1: on the root participant, for every subdivision count `nx` with `1 ≤ nx < 2^31` and
every accepted interval, the buffer given to the `Mesh` constructor has an `(nx+1) × 1`
geometry array and an `nx × 2` topology array, and cell `i` is the pair `(i, i+1)` for every
`i < nx`. -/
theorem build_root_counts_and_cells (eps : ℚ) (nx : Nat) (x : ℚ × ℚ)
    (heps : 0 < eps) (hnx : 1 ≤ nx) (h31 : nx < 2 ^ 31) (hx : eps ≤ x.2 - x.1) :
    ∃ mesh, build eps 0 nx x = Outcome.distributed mesh ∧
      mesh.geom.rows = nx + 1 ∧ mesh.geom.cols = 1 ∧
      mesh.topo.rows = nx ∧ mesh.topo.cols = 2 ∧
      ∀ i, i < nx → mesh.topo.row i = [(i : Int), (i : Int) + 1] := by
  refine ⟨_, build_root_accepted eps nx x heps hnx hx, ?_⟩
  obtain ⟨g1, g2, _⟩ := create_vertices_spec nx x.1 ((x.2 - x.1) / (nx : ℚ))
  obtain ⟨t1, t2, t3⟩ := create_intervals_spec nx
  refine ⟨g1, g2, t1, t2, ?_⟩
  intro i hi
  obtain ⟨c0, c1⟩ := t3 i hi
  rw [EigenMatrix.row_two _ t2, c0, c1, int_of_size_t_small i (by omega),
    int_of_size_t_small (i + 1) (by omega)]
  simp

/-- C1, at `nx = 4` on `(0, 1)`: five vertices and the cells `(0,1), (1,2), (2,3), (3,4)`. -/
theorem build_root_counts_and_cells_witness :
    ∃ mesh, build (3 / 10 ^ 16) 0 4 (0, 1) = Outcome.distributed mesh ∧
      mesh.geom.rows = 5 ∧ mesh.geom.cols = 1 ∧
      mesh.topo.toRows = [[0, 1], [1, 2], [2, 3], [3, 4]] := by
  obtain ⟨mesh, hb, g1, g2, t1, _, t3⟩ :=
    build_root_counts_and_cells (3 / 10 ^ 16) 4 (0, 1) (by norm_num) (by norm_num)
      (by norm_num) (by norm_num)
  refine ⟨mesh, hb, g1, g2, ?_⟩
  unfold EigenMatrix.toRows
  rw [t1]
  simp [List.range_succ, t3]

/-- The value `2^31` does not fit an `int`: it is converted to `-2^31`. -/
theorem int_of_size_t_two_pow_31 : int_of_size_t (2 ^ 31) = -(2 ^ 31 : Int) := by
  unfold int_of_size_t; norm_num

/-- On rank 0 with accepted parameters, the second entry of the last cell is the `int`
conversion of `nx`. -/
theorem build_root_last_cell (eps : ℚ) (nx : Nat) (x : ℚ × ℚ)
    (heps : 0 < eps) (hnx : 1 ≤ nx) (hx : eps ≤ x.2 - x.1) :
    ∃ mesh, build eps 0 nx x = Outcome.distributed mesh ∧
      mesh.geom.rows = nx + 1 ∧ mesh.topo.rows = nx ∧
      mesh.topo.coeff (nx - 1) 1 = int_of_size_t nx := by
  refine ⟨_, build_root_accepted eps nx x heps hnx hx, ?_⟩
  obtain ⟨g1, _, _⟩ := create_vertices_spec nx x.1 ((x.2 - x.1) / (nx : ℚ))
  obtain ⟨t1, _, t3⟩ := create_intervals_spec nx
  obtain ⟨_, c1⟩ := t3 (nx - 1) (by omega)
  have e : nx - 1 + 1 = nx := by omega
  rw [e] at c1
  exact ⟨g1, t1, c1⟩

/-- C3 (the code at the failing input): on rank 0 with `nx = 2^31` on `(0, 1)` no error is
raised, the vertex array has `2^31 + 1` rows, and the second entry of the last cell is
`-2^31`, a negative vertex index. -/
theorem build_root_last_cell_at_two_pow_31 :
    ∃ mesh, build (3 / 10 ^ 16) 0 (2 ^ 31) (0, 1) = Outcome.distributed mesh ∧
      mesh.geom.rows = 2 ^ 31 + 1 ∧ mesh.topo.rows = 2 ^ 31 ∧
      mesh.topo.coeff (2 ^ 31 - 1) 1 = -(2 ^ 31 : Int) ∧
      ¬ (0 ≤ mesh.topo.coeff (2 ^ 31 - 1) 1) := by
  obtain ⟨mesh, hb, g1, t1, c1⟩ := build_root_last_cell (3 / 10 ^ 16) (2 ^ 31) (0, 1)
    (by norm_num) (by norm_num) (by norm_num)
  rw [int_of_size_t_two_pow_31] at c1
  refine ⟨mesh, hb, g1, t1, c1, ?_⟩
  rw [c1]; norm_num

/-- C7 (the code at the failing input): on rank 1 with `nx = 0` on the interval `(0, 0)`,
invalid on both counts, `build` raises nothing and enters the collective call with the empty
buffer, while rank 0 raises on the same parameters. -/
theorem build_rank_one_skips_validation :
    build (3 / 10 ^ 16) 1 0 (0, 0) =
      Outcome.distributed { geom := EigenMatrix.alloc 0 1, topo := EigenMatrix.alloc 0 2 } ∧
    build (3 / 10 ^ 16) 0 0 (0, 0) = Outcome.raised Error.InvalidDimension := by
  refine ⟨build_nonroot _ 1 0 (0, 0) (by norm_num), ?_⟩
  unfold build
  norm_num

/-! ## The distributor -/

namespace MeshPartitioning

end MeshPartitioning

/-! ## The generated buffer and the distributor -/

theorem interval_buffer_cell (nx : Nat) (x : ℚ × ℚ) (h31 : nx < 2 ^ 31) (c : Nat) (hc : c < nx) :
    (interval_buffer nx x).cell c = [c, c + 1] := by
  obtain ⟨_, t2, t3⟩ := create_intervals_spec nx
  obtain ⟨c0, c1⟩ := t3 c hc
  unfold Buffer.cell interval_buffer
  rw [EigenMatrix.row_two _ t2, c0, c1, int_of_size_t_small c (by omega),
    int_of_size_t_small (c + 1) (by omega)]
  simp only [List.map_cons, List.map_nil, Int.toNat_ofNat]

theorem interval_buffer_valid (nx : Nat) (x : ℚ × ℚ) (h31 : nx < 2 ^ 31) :
    (interval_buffer nx x).valid_topology = true := by
  obtain ⟨g1, _, _⟩ := create_vertices_spec nx x.1 ((x.2 - x.1) / (nx : ℚ))
  obtain ⟨t1, t2, t3⟩ := create_intervals_spec nx
  unfold Buffer.valid_topology
  rw [List.all_eq_true]
  intro cell hcell
  unfold EigenMatrix.toRows at hcell
  obtain ⟨c, hc, rfl⟩ := List.mem_map.mp hcell
  have hc1 : c < nx := by
    have := List.mem_range.mp hc
    unfold interval_buffer at this
    rw [t1] at this
    exact this
  obtain ⟨c0, c1⟩ := t3 c hc1
  rw [List.all_eq_true]
  intro e he
  unfold interval_buffer at he ⊢
  rw [EigenMatrix.row_two _ t2, c0, c1, int_of_size_t_small c (by omega),
    int_of_size_t_small (c + 1) (by omega)] at he
  simp only [decide_eq_true_eq]
  rw [g1]
  simp only [List.mem_cons, List.mem_singleton, List.not_mem_nil, or_false] at he
  rcases he with rfl | rfl
  · push_cast; omega
  · push_cast; omega

/-- When no cell carries the marker, `SubMesh::init` returns the empty mesh. -/
theorem SubMesh.init_no_match (mesh : MeshHandle) (sub_domains : List Nat) (sub_domain : Nat)
    (h : ∀ c, c < mesh.local_cells.length → sub_domains[c]? ≠ some sub_domain) :
    SubMesh.init mesh sub_domains sub_domain
      = Except.ok { vertices := [], cells := [], parent_vertex_indices := [] } := by
  have hsel : (List.range mesh.local_cells.length).filter
      (fun c => decide (sub_domains[c]? = some sub_domain)) = [] := by
    rw [List.filter_eq_nil_iff]
    intro c hc
    simpa using h c (List.mem_range.mp hc)
  unfold SubMesh.init
  simp only [hsel]
  rfl

/-- C10: for every parent mesh, extraction with a marker value that no cell carries, or with
a sub-domain that holds for no cell, returns without error the empty mesh: 0 vertices and
0 cells. -/
theorem submesh_no_match_is_empty (mesh : MeshHandle) :
    (∀ (sub_domains : List Nat) (sub_domain : Nat),
      (∀ c, c < mesh.local_cells.length → sub_domains[c]? ≠ some sub_domain) →
      ∃ sub, SubMesh.of_mesh_function mesh sub_domains sub_domain = Except.ok sub ∧
        sub.vertices.length = 0 ∧ sub.cells.length = 0) ∧
    (∀ (inside : List (List ℚ) → Bool),
      (∀ cell, cell ∈ mesh.local_cells →
        inside (cell.map (fun v => mesh.local_vertices.getD v [])) = false) →
      ∃ sub, SubMesh.of_sub_domain mesh inside = Except.ok sub ∧
        sub.vertices.length = 0 ∧ sub.cells.length = 0) := by
  constructor
  · intro sub_domains sub_domain h
    exact ⟨_, SubMesh.init_no_match mesh sub_domains sub_domain h, rfl, rfl⟩
  · intro inside h
    refine ⟨_, SubMesh.init_no_match mesh _ 1 ?_, rfl, rfl⟩
    intro c hc
    rw [List.getElem?_map, List.getElem?_eq_getElem hc]
    have hin := h mesh.local_cells[c] (List.getElem_mem hc)
    show some (if inside (mesh.local_cells[c].map (fun v => mesh.local_vertices.getD v [])) = true
      then 1 else 0) ≠ some 1
    rw [hin]
    decide

/-- C10, on a parent mesh of two cells with markers 5 and 7: the marker value 9 and the
sub-domain that holds nowhere both give the empty mesh. -/
theorem submesh_no_match_is_empty_witness :
    (∃ sub, SubMesh.of_mesh_function
        { local_vertices := [[0], [1 / 2], [1]], local_cells := [[0, 1], [1, 2]],
          global_vertex_id := [0, 1, 2], vertex_owner_rank := [0, 0, 0] } [5, 7] 9
        = Except.ok sub ∧ sub.vertices.length = 0 ∧ sub.cells.length = 0) ∧
    (∃ sub, SubMesh.of_sub_domain
        { local_vertices := [[0], [1 / 2], [1]], local_cells := [[0, 1], [1, 2]],
          global_vertex_id := [0, 1, 2], vertex_owner_rank := [0, 0, 0] } (fun _ => false)
        = Except.ok sub ∧ sub.vertices.length = 0 ∧ sub.cells.length = 0) :=
  ⟨(submesh_no_match_is_empty _).1 [5, 7] 9 (by
      intro c hc
      have hc2 : c < 2 := hc
      interval_cases c <;> decide),
    (submesh_no_match_is_empty _).2 (fun _ => false) (fun _ _ => rfl)⟩

/-! ## Topology of the generated mesh -/

/-- Every converted value is a signed 32-bit value. -/
theorem int_of_size_t_range (v : Nat) :
    -(2 ^ 31 : Int) ≤ int_of_size_t v ∧ int_of_size_t v < 2 ^ 31 := by
  unfold int_of_size_t
  have h : v % 2 ^ 32 < 2 ^ 32 := Nat.mod_lt _ (by norm_num)
  split <;> omega

/-- The cells of the generated buffer that reference a vertex, while `nx` fits an `int`. -/
theorem interval_buffer_references (nx : Nat) (x : ℚ × ℚ) (h31 : nx < 2 ^ 31) (c v : Nat) :
    (interval_buffer nx x).references c v ↔ c < nx ∧ (v = c ∨ v = c + 1) := by
  obtain ⟨t1, t2, t3⟩ := create_intervals_spec nx
  have ht : (interval_buffer nx x).topo.rows = nx := t1
  have hcols : (interval_buffer nx x).topo.cols = 2 := t2
  unfold Buffer.references
  rw [ht]
  constructor
  · rintro ⟨hc, hm⟩
    refine ⟨hc, ?_⟩
    obtain ⟨c0, c1⟩ := t3 c hc
    have c0b : (interval_buffer nx x).topo.coeff c 0 = int_of_size_t c := c0
    have c1b : (interval_buffer nx x).topo.coeff c 1 = int_of_size_t (c + 1) := c1
    rw [EigenMatrix.row_two _ hcols, c0b, c1b, int_of_size_t_small c (by omega),
      int_of_size_t_small (c + 1) (by omega)] at hm
    simp only [List.mem_cons, List.mem_singleton, List.not_mem_nil, or_false] at hm
    rcases hm with h | h
    · left; exact_mod_cast h
    · right; exact_mod_cast h
  · rintro ⟨hc, hv⟩
    refine ⟨hc, ?_⟩
    obtain ⟨c0, c1⟩ := t3 c hc
    have c0b : (interval_buffer nx x).topo.coeff c 0 = int_of_size_t c := c0
    have c1b : (interval_buffer nx x).topo.coeff c 1 = int_of_size_t (c + 1) := c1
    rw [EigenMatrix.row_two _ hcols, c0b, c1b, int_of_size_t_small c (by omega),
      int_of_size_t_small (c + 1) (by omega)]
    rcases hv with rfl | rfl
    · simp
    · simp

/-- While `nx` fits an `int`, the generated topology is a path: every vertex is referenced,
vertex 0 only by cell 0, vertex `nx` only by cell `nx - 1`, an interior vertex `i` exactly
by the cells `i - 1` and `i`, and two distinct cells share a vertex exactly when their
indices differ by 1. -/
theorem interval_buffer_path (nx : Nat) (x : ℚ × ℚ) (hnx : 1 ≤ nx) (h31 : nx < 2 ^ 31) :
    (∀ v, v ≤ nx → ∃ c, (interval_buffer nx x).references c v) ∧
    (∀ c, (interval_buffer nx x).references c 0 ↔ c = 0) ∧
    (∀ c, (interval_buffer nx x).references c nx ↔ c = nx - 1) ∧
    (∀ i c, 0 < i → i < nx → ((interval_buffer nx x).references c i ↔ c = i - 1 ∨ c = i)) ∧
    (∀ c d, c < nx → d < nx → c ≠ d →
      ((∃ v, (interval_buffer nx x).references c v ∧ (interval_buffer nx x).references d v)
        ↔ (c + 1 = d ∨ d + 1 = c))) := by
  refine ⟨?_, ?_, ?_, ?_, ?_⟩
  · intro v hv
    by_cases h : v < nx
    · exact ⟨v, (interval_buffer_references nx x h31 v v).mpr ⟨h, Or.inl rfl⟩⟩
    · exact ⟨nx - 1, (interval_buffer_references nx x h31 (nx - 1) v).mpr
        ⟨by omega, Or.inr (by omega)⟩⟩
  · intro c
    rw [interval_buffer_references nx x h31]
    omega
  · intro c
    rw [interval_buffer_references nx x h31]
    omega
  · intro i c h0 hi
    rw [interval_buffer_references nx x h31]
    omega
  · intro c d hc hd hcd
    constructor
    · rintro ⟨v, h1, h2⟩
      rw [interval_buffer_references nx x h31] at h1 h2
      omega
    · intro h
      rcases h with h | h
      · exact ⟨d, (interval_buffer_references nx x h31 c d).mpr ⟨hc, Or.inr h.symm⟩,
          (interval_buffer_references nx x h31 d d).mpr ⟨hd, Or.inl rfl⟩⟩
      · exact ⟨c, (interval_buffer_references nx x h31 c c).mpr ⟨hc, Or.inl rfl⟩,
          (interval_buffer_references nx x h31 d c).mpr ⟨hd, Or.inr h.symm⟩⟩

/-- No cell of a generated buffer references a vertex index of `2^31` or more: the entries
are 32-bit values. -/
theorem build_root_unreferenced (eps : ℚ) (nx : Nat) (x : ℚ × ℚ)
    (heps : 0 < eps) (hnx : 1 ≤ nx) (hx : eps ≤ x.2 - x.1) (v : Nat) (hv : 2 ^ 31 ≤ v) :
    ∃ mesh, build eps 0 nx x = Outcome.distributed mesh ∧
      mesh.geom.rows = nx + 1 ∧ mesh.topo.rows = nx ∧ ∀ c, ¬ mesh.references c v := by
  refine ⟨_, build_root_accepted eps nx x heps hnx hx, ?_⟩
  obtain ⟨g1, _, _⟩ := create_vertices_spec nx x.1 ((x.2 - x.1) / (nx : ℚ))
  obtain ⟨t1, t2, t3⟩ := create_intervals_spec nx
  refine ⟨g1, t1, ?_⟩
  rintro c ⟨hc, hm⟩
  have hc1 : c < nx := by rw [← t1]; exact hc
  obtain ⟨c0, c1⟩ := t3 c hc1
  have hm1 : (v : Int) ∈ (create_intervals nx (EigenMatrix.alloc nx 2)).row c := hm
  rw [EigenMatrix.row_two _ t2, c0, c1] at hm1
  have r0 := (int_of_size_t_range c).2
  have r1 := (int_of_size_t_range (c + 1)).2
  simp only [List.mem_cons, List.mem_singleton, List.not_mem_nil, or_false] at hm1
  rcases hm1 with h | h <;> omega

/-- C13 (the code at the failing input): on rank 0 with `nx = 2^31` on `(0, 1)` the vertex
array has `2^31 + 1` rows, and vertex `2^31`, the last one, is referenced by no cell. -/
theorem build_root_orphan_vertex_at_two_pow_31 :
    ∃ mesh, build (3 / 10 ^ 16) 0 (2 ^ 31) (0, 1) = Outcome.distributed mesh ∧
      mesh.geom.rows = 2 ^ 31 + 1 ∧ mesh.topo.rows = 2 ^ 31 ∧
      ∀ c, ¬ mesh.references c (2 ^ 31) :=
  build_root_unreferenced (3 / 10 ^ 16) (2 ^ 31) (0, 1) (by norm_num) (by norm_num)
    (by norm_num) (2 ^ 31) (le_refl _)

/-- C14: the loop index is a `size_t` and the connectivity entries are 32-bit `int`s.  For
every `nx` with `1 ≤ nx ≤ 2^31 - 1` each stored entry of cell `ix` is the value `ix` or
`ix + 1` itself; for `nx = 2^31` the second entry of the last cell is stored as `-2^31`,
which is not a row of the vertex array. -/
theorem build_root_int_entries (eps : ℚ) (x : ℚ × ℚ) (heps : 0 < eps) (hx : eps ≤ x.2 - x.1) :
    (∀ nx, 1 ≤ nx → nx ≤ 2 ^ 31 - 1 →
      ∃ mesh, build eps 0 nx x = Outcome.distributed mesh ∧
        ∀ ix, ix < nx →
          mesh.topo.coeff ix 0 = (ix : Int) ∧ mesh.topo.coeff ix 1 = (ix : Int) + 1) ∧
    (∃ mesh, build eps 0 (2 ^ 31) x = Outcome.distributed mesh ∧
      mesh.topo.coeff (2 ^ 31 - 1) 1 = int_of_size_t (2 ^ 31) ∧
      int_of_size_t (2 ^ 31) = -(2 ^ 31 : Int) ∧
      ¬ (0 ≤ mesh.topo.coeff (2 ^ 31 - 1) 1 ∧
        mesh.topo.coeff (2 ^ 31 - 1) 1 < (mesh.geom.rows : Int))) := by
  constructor
  · intro nx hnx h31
    refine ⟨_, build_root_accepted eps nx x heps hnx hx, ?_⟩
    obtain ⟨_, _, t3⟩ := create_intervals_spec nx
    intro ix hix
    obtain ⟨c0, c1⟩ := t3 ix hix
    refine ⟨?_, ?_⟩
    · show (create_intervals nx (EigenMatrix.alloc nx 2)).coeff ix 0 = (ix : Int)
      rw [c0, int_of_size_t_small ix (by omega)]
    · show (create_intervals nx (EigenMatrix.alloc nx 2)).coeff ix 1 = (ix : Int) + 1
      rw [c1, int_of_size_t_small (ix + 1) (by omega)]
      push_cast; rfl
  · obtain ⟨mesh, hb, _, _, c1⟩ := build_root_last_cell eps (2 ^ 31) x heps (by norm_num) hx
    refine ⟨mesh, hb, c1, int_of_size_t_two_pow_31, ?_⟩
    rw [c1, int_of_size_t_two_pow_31]
    intro h
    have := h.1
    norm_num at this

/-- C14, at tolerance `3e-16` on `(0, 1)`: with `nx = 4` the last cell is stored as `(3, 4)`. -/
theorem build_root_int_entries_witness :
    ∃ mesh, build (3 / 10 ^ 16) 0 4 (0, 1) = Outcome.distributed mesh ∧
      mesh.topo.coeff 3 0 = 3 ∧ mesh.topo.coeff 3 1 = 3 + 1 := by
  obtain ⟨mesh, hb, h⟩ :=
    (build_root_int_entries (3 / 10 ^ 16) (0, 1) (by norm_num) (by norm_num)).1 4
      (by norm_num) (by norm_num)
  exact ⟨mesh, hb, h 3 (by norm_num)⟩

/-! ## Rounding to binary64 -/

namespace Double

/-! ### rounding to an integer -/

theorem floor_bounds (r : ℚ) (hr : 0 ≤ r) : (⌊r⌋₊ : ℚ) ≤ r ∧ r < (⌊r⌋₊ : ℚ) + 1 :=
  ⟨Nat.floor_le hr, Nat.lt_floor_add_one r⟩

theorem round_half_even_cases (r : ℚ) :
    round_half_even r = ⌊r⌋₊ ∨ round_half_even r = ⌊r⌋₊ + 1 := by
  unfold round_half_even
  split_ifs <;> simp

theorem round_half_even_natCast (n : ℕ) : round_half_even (n : ℚ) = n := by
  unfold round_half_even
  simp

theorem round_half_even_mono (r s : ℚ) (hr : 0 ≤ r) (h : r ≤ s) :
    round_half_even r ≤ round_half_even s := by
  have hs : 0 ≤ s := le_trans hr h
  obtain ⟨r1, r2⟩ := floor_bounds r hr
  obtain ⟨s1, s2⟩ := floor_bounds s hs
  have hf : ⌊r⌋₊ ≤ ⌊s⌋₊ := Nat.floor_mono h
  rcases Nat.lt_or_ge ⌊r⌋₊ ⌊s⌋₊ with hlt | hge
  · have a1 : round_half_even r ≤ ⌊r⌋₊ + 1 := by
      rcases round_half_even_cases r with h1 | h1 <;> omega
    have a2 : ⌊s⌋₊ ≤ round_half_even s := by
      rcases round_half_even_cases s with h1 | h1 <;> omega
    omega
  · have heq : ⌊r⌋₊ = ⌊s⌋₊ := le_antisymm hf hge
    unfold round_half_even
    rw [heq]
    rw [heq] at r1 r2
    split_ifs <;> first | omega | (exfalso; linarith)

/-- A rational closer than one half to a natural number rounds to it. -/
theorem round_half_even_eq (r : ℚ) (n : ℕ) (hr : 0 ≤ r) (h1 : (n : ℚ) - 1 / 2 < r)
    (h2 : r < (n : ℚ) + 1 / 2) : round_half_even r = n := by
  obtain ⟨f1, f2⟩ := floor_bounds r hr
  have hle : ⌊r⌋₊ ≤ n := by
    have : (⌊r⌋₊ : ℚ) < (n : ℚ) + 1 := by linarith
    exact_mod_cast Nat.lt_succ_iff.mp (by exact_mod_cast this)
  have hge : n ≤ ⌊r⌋₊ + 1 := by
    have : (n : ℚ) < (⌊r⌋₊ : ℚ) + 1 + 1 := by linarith
    have h3 : n < ⌊r⌋₊ + 1 + 1 := by exact_mod_cast this
    omega
  rcases Nat.lt_or_ge ⌊r⌋₊ n with hlt | hge2
  · have heq : n = ⌊r⌋₊ + 1 := by omega
    have hc : (n : ℚ) = (⌊r⌋₊ : ℚ) + 1 := by rw [heq]; push_cast; ring
    unfold round_half_even
    rw [if_neg (by linarith), if_pos (by linarith)]
    exact heq.symm
  · have heq : ⌊r⌋₊ = n := le_antisymm hle hge2
    unfold round_half_even
    rw [heq, if_pos (by linarith)]

theorem quantum_pos (m : ℚ) : 0 < quantum m := by
  unfold quantum; positivity

theorem exponent_mono (m1 m2 : ℚ) (h0 : 0 < m1) (h : m1 ≤ m2) : exponent m1 ≤ exponent m2 := by
  unfold exponent
  exact max_le_max (Int.log_mono_right h0 h) (le_refl _)

theorem lt_zpow_exponent (m : ℚ) : m < (2 : ℚ) ^ (exponent m + 1) := by
  have h1 := Int.lt_zpow_succ_log_self (b := 2) (by norm_num) m
  have h2 : (2 : ℚ) ^ (Int.log 2 m + 1) ≤ (2 : ℚ) ^ (exponent m + 1) := by
    apply zpow_le_zpow_right₀ (by norm_num)
    unfold exponent
    have := le_max_left (Int.log 2 m) (-1022)
    omega
  push_cast at h1
  linarith

theorem zpow_exponent_le (m : ℚ) (h0 : 0 < m) (h : -1022 ≤ Int.log 2 m) :
    (2 : ℚ) ^ exponent m ≤ m := by
  have h1 := Int.zpow_log_le_self (b := 2) (by norm_num) h0
  unfold exponent
  rw [max_eq_left h]
  push_cast at h1
  exact h1

/-- The exponent of a rational in a binade of the normal range. -/
theorem exponent_eq (m : ℚ) (e : ℤ) (he : -1022 ≤ e) (h1 : (2 : ℚ) ^ e ≤ m)
    (h2 : m < (2 : ℚ) ^ (e + 1)) : exponent m = e := by
  have h0 : 0 < m := lt_of_lt_of_le (by positivity) h1
  have a1 : e ≤ Int.log 2 m := (Int.zpow_le_iff_le_log (b := 2) (by norm_num) h0).mp (by
    push_cast; exact h1)
  have a2 : Int.log 2 m < e + 1 := (Int.lt_zpow_iff_log_lt (b := 2) (by norm_num) h0).mp (by
    push_cast; exact h2)
  unfold exponent
  rw [max_eq_left (by omega)]
  omega

/-! ### rounding a magnitude -/

theorem pow53_mul_quantum (m : ℚ) :
    ((2 ^ 53 : ℕ) : ℚ) * quantum m = (2 : ℚ) ^ (exponent m + 1) := by
  unfold quantum
  have h : ((2 ^ 53 : ℕ) : ℚ) = (2 : ℚ) ^ (53 : ℤ) := by norm_num
  rw [h, ← zpow_add₀ (by norm_num)]
  congr 1
  ring

theorem pow52_mul_quantum (m : ℚ) :
    ((2 ^ 52 : ℕ) : ℚ) * quantum m = (2 : ℚ) ^ exponent m := by
  unfold quantum
  have h : ((2 ^ 52 : ℕ) : ℚ) = (2 : ℚ) ^ (52 : ℤ) := by norm_num
  rw [h, ← zpow_add₀ (by norm_num)]
  congr 1
  ring

theorem round_magnitude_nonneg (m : ℚ) : 0 ≤ round_magnitude m := by
  unfold round_magnitude
  exact mul_nonneg (Nat.cast_nonneg _) (le_of_lt (quantum_pos m))

theorem round_magnitude_zero : round_magnitude 0 = 0 := by
  unfold round_magnitude
  rw [zero_div]
  have : round_half_even 0 = 0 := by
    have := round_half_even_natCast 0
    simpa using this
  rw [this]; simp

/-- The magnitude after rounding stays within the binade of the exponent. -/
theorem round_magnitude_le_zpow (m : ℚ) (h0 : 0 ≤ m) :
    round_magnitude m ≤ (2 : ℚ) ^ (exponent m + 1) := by
  have hq := quantum_pos m
  have h1 : m / quantum m ≤ ((2 ^ 53 : ℕ) : ℚ) := by
    rw [div_le_iff₀ hq]
    have h2 := lt_zpow_exponent m
    have h3 : ((2 ^ 53 : ℕ) : ℚ) * quantum m = (2 : ℚ) ^ (exponent m + 1) := pow53_mul_quantum m
    rw [h3]; exact le_of_lt h2
  have h4 := round_half_even_mono _ _ (div_nonneg h0 (le_of_lt hq)) h1
  rw [round_half_even_natCast] at h4
  unfold round_magnitude
  have h5 : ((round_half_even (m / quantum m) : ℕ) : ℚ) ≤ ((2 ^ 53 : ℕ) : ℚ) := by
    exact_mod_cast h4
  calc (round_half_even (m / quantum m) : ℚ) * quantum m
      ≤ ((2 ^ 53 : ℕ) : ℚ) * quantum m := mul_le_mul_of_nonneg_right h5 (le_of_lt hq)
    _ = (2 : ℚ) ^ (exponent m + 1) := pow53_mul_quantum m

theorem zpow_le_round_magnitude (m : ℚ) (h0 : 0 < m) (h : -1022 ≤ Int.log 2 m) :
    (2 : ℚ) ^ exponent m ≤ round_magnitude m := by
  have hq := quantum_pos m
  have hm := zpow_exponent_le m h0 h
  have h3 : ((2 ^ 52 : ℕ) : ℚ) * quantum m = (2 : ℚ) ^ exponent m := pow52_mul_quantum m
  have h1 : ((2 ^ 52 : ℕ) : ℚ) ≤ m / quantum m := by
    rw [le_div_iff₀ hq, h3]; exact hm
  have h4 := round_half_even_mono _ _ (Nat.cast_nonneg _) h1
  rw [round_half_even_natCast] at h4
  have h5 : ((2 ^ 52 : ℕ) : ℚ) ≤ ((round_half_even (m / quantum m) : ℕ) : ℚ) := by
    exact_mod_cast h4
  unfold round_magnitude
  rw [← h3]
  exact mul_le_mul_of_nonneg_right h5 (le_of_lt hq)

/-- Rounding is monotone on magnitudes. -/
theorem round_magnitude_mono (m1 m2 : ℚ) (h0 : 0 ≤ m1) (h : m1 ≤ m2) :
    round_magnitude m1 ≤ round_magnitude m2 := by
  rcases eq_or_lt_of_le h0 with hz | hpos
  · rw [← hz, round_magnitude_zero]; exact round_magnitude_nonneg m2
  · have he := exponent_mono m1 m2 hpos h
    rcases eq_or_lt_of_le he with heq | hlt
    · have hq : quantum m1 = quantum m2 := by unfold quantum; rw [heq]
      unfold round_magnitude
      rw [hq]
      have h1 : m1 / quantum m2 ≤ m2 / quantum m2 :=
        div_le_div_of_nonneg_right h (le_of_lt (quantum_pos m2))
      have h2 := round_half_even_mono _ _ (div_nonneg h0 (le_of_lt (quantum_pos m2))) h1
      exact mul_le_mul_of_nonneg_right (by exact_mod_cast h2) (le_of_lt (quantum_pos m2))
    · have hlog : -1022 ≤ Int.log 2 m2 := by
        have h1 : -1022 ≤ exponent m1 := by unfold exponent; exact le_max_right _ _
        have h2 : exponent m2 = max (Int.log 2 m2) (-1022) := rfl
        by_contra hc
        push_neg at hc
        rw [max_eq_right (le_of_lt hc)] at h2
        omega
      have a1 := round_magnitude_le_zpow m1 h0
      have a2 := zpow_le_round_magnitude m2 (lt_of_lt_of_le hpos h) hlog
      have a3 : (2 : ℚ) ^ (exponent m1 + 1) ≤ (2 : ℚ) ^ exponent m2 :=
        zpow_le_zpow_right₀ (by norm_num) (by omega)
      linarith

/-- The value of `round_magnitude` in a binade of the normal range. -/
theorem round_magnitude_eq (m : ℚ) (e : ℤ) (n : ℕ) (he : -1022 ≤ e) (h1 : (2 : ℚ) ^ e ≤ m)
    (h2 : m < (2 : ℚ) ^ (e + 1)) (hn : round_half_even (m / (2 : ℚ) ^ (e - 52)) = n) :
    round_magnitude m = (n : ℚ) * (2 : ℚ) ^ (e - 52) := by
  unfold round_magnitude quantum
  rw [exponent_eq m e he h1 h2, hn]

/-! ### rounding to a binary64 value -/

theorem nearest_of_nonneg (q : ℚ) (h : 0 ≤ q) :
    nearest q = if (2 : ℚ) ^ 1024 ≤ round_magnitude q then inf false
      else finite (round_magnitude q) := by
  unfold nearest
  rw [abs_of_nonneg h]
  have : ¬ (q < 0) := not_lt.mpr h
  simp [this]

theorem nearest_of_neg (q : ℚ) (h : q < 0) :
    nearest q = if (2 : ℚ) ^ 1024 ≤ round_magnitude (-q) then inf true
      else finite (-round_magnitude (-q)) := by
  unfold nearest
  rw [abs_of_neg h]
  simp [h]

theorem nearest_neg (q : ℚ) : nearest (-q) = neg (nearest q) := by
  rcases lt_trichotomy q 0 with h | h | h
  · rw [nearest_of_nonneg (-q) (by linarith), nearest_of_neg q h]
    split_ifs <;> simp [neg]
  · subst h
    rw [neg_zero, nearest_of_nonneg 0 (le_refl _), round_magnitude_zero]
    norm_num [neg]
  · rw [nearest_of_neg (-q) (by linarith), nearest_of_nonneg q (le_of_lt h), neg_neg]
    split_ifs <;> simp [neg]

/-- Rounding to nearest is monotone. -/
theorem nearest_le (q1 q2 : ℚ) (h : q1 ≤ q2) : le (nearest q1) (nearest q2) = true := by
  rcases lt_or_le q1 0 with h1 | h1
  · rcases lt_or_le q2 0 with h2 | h2
    · have hm := round_magnitude_mono (-q2) (-q1) (by linarith) (by linarith)
      rw [nearest_of_neg q1 h1, nearest_of_neg q2 h2]
      split_ifs with a b b
      · simp [le]
      · simp [le]
      · exact absurd (le_trans b hm) a
      · simp only [le, decide_eq_true_eq]; linarith
    · have n1 := round_magnitude_nonneg (-q1)
      have n2 := round_magnitude_nonneg q2
      rw [nearest_of_neg q1 h1, nearest_of_nonneg q2 h2]
      split_ifs
      · simp [le]
      · simp [le]
      · simp [le]
      · simp only [le, decide_eq_true_eq]; linarith
  · have h2 : 0 ≤ q2 := le_trans h1 h
    have hm := round_magnitude_mono q1 q2 h1 h
    rw [nearest_of_nonneg q1 h1, nearest_of_nonneg q2 h2]
    split_ifs with a b b
    · simp [le]
    · exact absurd (le_trans a hm) b
    · simp [le]
    · simp only [le, decide_eq_true_eq]; exact hm

/-- The binary64 value nearest to a positive rational of the normal range. -/
theorem nearest_eq (q : ℚ) (e : ℤ) (n : ℕ) (he : -1022 ≤ e) (h1 : (2 : ℚ) ^ e ≤ q)
    (h2 : q < (2 : ℚ) ^ (e + 1)) (hn : round_half_even (q / (2 : ℚ) ^ (e - 52)) = n)
    (hfin : (n : ℚ) * (2 : ℚ) ^ (e - 52) < (2 : ℚ) ^ 1024) :
    nearest q = finite ((n : ℚ) * (2 : ℚ) ^ (e - 52)) := by
  have h0 : 0 ≤ q := le_trans (by positivity) h1
  rw [nearest_of_nonneg q h0, round_magnitude_eq q e n he h1 h2 hn, if_neg (not_le.mpr hfin)]

theorem nearest_zero : nearest 0 = finite 0 := by
  rw [nearest_of_nonneg 0 (le_refl _), round_magnitude_zero]
  norm_num

end Double

/-! ## The binary64 reading: loops and checks -/

namespace Double

/-- A rational with a 53-bit mantissa and an exponent of the normal range is a binary64
value. -/
theorem nearest_of_mantissa (q : ℚ) (n : ℕ) (e : ℤ) (hq : q = (n : ℚ) * (2 : ℚ) ^ (e - 52))
    (hn : 2 ^ 52 ≤ n) (hn2 : n < 2 ^ 53) (he : -1022 ≤ e) (he2 : e ≤ 1023) :
    nearest q = finite q := by
  have hpos : (0 : ℚ) < (2 : ℚ) ^ (e - 52) := by positivity
  have h52 : ((2 ^ 52 : ℕ) : ℚ) * (2 : ℚ) ^ (e - 52) = (2 : ℚ) ^ e := by
    have h : ((2 ^ 52 : ℕ) : ℚ) = (2 : ℚ) ^ (52 : ℤ) := by norm_num
    rw [h, ← zpow_add₀ (by norm_num)]
    congr 1
    ring
  have h53 : ((2 ^ 53 : ℕ) : ℚ) * (2 : ℚ) ^ (e - 52) = (2 : ℚ) ^ (e + 1) := by
    have h : ((2 ^ 53 : ℕ) : ℚ) = (2 : ℚ) ^ (53 : ℤ) := by norm_num
    rw [h, ← zpow_add₀ (by norm_num)]
    congr 1
    ring
  have c1 : ((2 ^ 52 : ℕ) : ℚ) ≤ (n : ℚ) := by exact_mod_cast hn
  have c2 : (n : ℚ) < ((2 ^ 53 : ℕ) : ℚ) := by exact_mod_cast hn2
  have b1 : (2 : ℚ) ^ e ≤ q := by
    rw [hq, ← h52]
    exact mul_le_mul_of_nonneg_right c1 (le_of_lt hpos)
  have b2 : q < (2 : ℚ) ^ (e + 1) := by
    rw [hq, ← h53]
    exact mul_lt_mul_of_pos_right c2 hpos
  have hr : round_half_even (q / (2 : ℚ) ^ (e - 52)) = n := by
    rw [hq, mul_div_assoc, div_self (ne_of_gt hpos), mul_one]
    exact round_half_even_natCast n
  have hfin : (n : ℚ) * (2 : ℚ) ^ (e - 52) < (2 : ℚ) ^ 1024 := by
    rw [← hq]
    have : (2 : ℚ) ^ (e + 1) ≤ (2 : ℚ) ^ 1024 := by
      rw [← zpow_natCast]
      exact zpow_le_zpow_right₀ (by norm_num) (by push_cast; omega)
    linarith
  rw [nearest_eq q e n he b1 b2 hr hfin, ← hq]

end Double

/-- The state of a loop `for (ix = 0; ix < k; ix++) g(ix, 0) = f(ix)` after its `k`
iterations. -/
theorem set_column_steps {α : Type} (f : Nat → α) (g : EigenMatrix α) (hc : 0 < g.cols)
    (k : Nat) :
    k ≤ g.rows →
    ((List.range k).foldl (fun g ix => g.set ix 0 (f ix)) g).rows = g.rows ∧
    ((List.range k).foldl (fun g ix => g.set ix 0 (f ix)) g).cols = g.cols ∧
    ∀ r c, ((List.range k).foldl (fun g ix => g.set ix 0 (f ix)) g).coeff r c =
      if r < k ∧ c = 0 then f r else g.coeff r c := by
  induction k with
  | zero => intro _; simp
  | succ k ih =>
    intro hk
    obtain ⟨h1, h2, h3⟩ := ih (by omega)
    rw [List.range_succ, List.foldl_append]
    simp only [List.foldl_cons, List.foldl_nil]
    refine ⟨by rw [EigenMatrix.set_rows, h1], by rw [EigenMatrix.set_cols, h2], ?_⟩
    intro r c
    rw [EigenMatrix.set_coeff _ _ _ _ _ _ (by omega) (by omega), h3]
    by_cases hr : r = k
    · subst hr
      by_cases hc0 : c = 0
      · simp [hc0]
      · simp [hc0]
    · have : (r < k + 1) ↔ (r < k) := by omega
      simp [hr, this]

namespace binary64

/-- The vertex array after the vertex loop, when `nx + 1` does not wrap. -/
theorem create_vertices_stored (nx : Nat) (a ab : Double) (hsz : nx < 2 ^ 64 - 1) :
    (create_vertices nx a ab (EigenMatrix.alloc ((nx + 1) % 2 ^ 64) 1)).rows = nx + 1 ∧
    (create_vertices nx a ab (EigenMatrix.alloc ((nx + 1) % 2 ^ 64) 1)).cols = 1 ∧
    ∀ i, i ≤ nx →
      (create_vertices nx a ab (EigenMatrix.alloc ((nx + 1) % 2 ^ 64) 1)).coeff i 0
        = Double.add a (Double.mul ab (Double.of_size_t i)) := by
  have hmod : (nx + 1) % 2 ^ 64 = nx + 1 := Nat.mod_eq_of_lt (by omega)
  rw [hmod]
  obtain ⟨h1, h2, h3⟩ := set_column_steps
    (fun ix => Double.add a (Double.mul ab (Double.of_size_t ix)))
    (EigenMatrix.alloc (nx + 1) 1) (by simp [EigenMatrix.alloc]) (nx + 1)
    (by simp [EigenMatrix.alloc])
  refine ⟨h1, h2, ?_⟩
  intro i hi
  have : i < nx + 1 := by omega
  unfold create_vertices
  rw [h3]; simp [this]

theorem build_nonroot_any (eps : Double) (rank nx : Nat) (x : Double × Double) (h : rank ≠ 0) :
    build eps rank nx x =
      Outcome.distributed { geom := EigenMatrix.alloc 0 1, topo := EigenMatrix.alloc 0 2 } := by
  unfold build; rw [if_pos h]

/-- On rank 0 `build` is the code after the quotient, run on the computed step. -/
theorem build_root_eq (eps : Double) (nx : Nat) (x : Double × Double) :
    build eps 0 nx x = build_after_quotient eps nx x.1 x.2 (step nx x) := by
  unfold build build_after_quotient step
  simp only [ne_eq, not_true_eq_false, if_false]

theorem accepted_iff (eps : Double) (x : Double × Double) :
    accepted eps x = true ↔
      Double.lt (Double.abs (Double.sub x.1 x.2)) eps = false ∧ Double.lt x.2 x.1 = false := by
  unfold accepted
  simp

/-- On rank 0, parameters that pass the three checks reach the two loops. -/
theorem build_root_passes (eps : Double) (nx : Nat) (x : Double × Double)
    (hnx : 1 ≤ nx) (hx : accepted eps x = true) :
    build eps 0 nx x = Outcome.distributed
      { geom := create_vertices nx x.1 (step nx x) (EigenMatrix.alloc ((nx + 1) % 2 ^ 64) 1),
        topo := create_intervals nx (EigenMatrix.alloc nx 2) } := by
  obtain ⟨h1, h2⟩ := (accepted_iff eps x).mp hx
  have hn : ¬ (nx < 1) := by omega
  rw [build_root_eq]
  unfold build_after_quotient
  simp only [h1, h2, hn, if_false, Bool.false_eq_true]

/-- An interval of finite endpoints with `b - a ≥ DOLFIN_EPS`, read exactly, passes the two
interval checks: rounding is monotone and leaves the tolerance as it is. -/
theorem accepted_of_le (ε α β : ℚ) (hε : 0 < ε) (hb : (Double.finite ε).is_binary64)
    (h : ε ≤ β - α) : accepted (Double.finite ε) (Double.finite α, Double.finite β) = true := by
  rw [accepted_iff]
  have hneg : α + -β < 0 := by linarith
  have hle := Double.nearest_le (α + -β) (-ε) (by linarith)
  have he : Double.nearest (-ε) = Double.finite (-ε) := by
    rw [Double.nearest_neg]
    have : Double.nearest ε = Double.finite ε := hb
    rw [this]; rfl
  rw [he] at hle
  constructor
  · show Double.lt (Double.abs (Double.add (Double.finite α) (Double.neg (Double.finite β))))
      (Double.finite ε) = false
    simp only [Double.neg, Double.add]
    rw [Double.nearest_of_neg _ hneg] at hle ⊢
    split_ifs at hle ⊢
    · simp [Double.abs, Double.lt]
    · simp only [Double.le, decide_eq_true_eq] at hle
      have hr := Double.round_magnitude_nonneg (-(α + -β))
      simp only [Double.abs, Double.lt, abs_neg, abs_of_nonneg hr, decide_eq_false_iff_not,
        not_lt]
      linarith
  · show Double.lt (Double.finite β) (Double.finite α) = false
    simp only [Double.lt, decide_eq_false_iff_not, not_lt]
    linarith

end binary64

/-! ## Concrete binary64 values -/

namespace Double

/-- The literal `3.0e-16` is the binary64 value `6084722881095501 * 2^-104`. -/
theorem nearest_eps : nearest (6084722881095501 / 2 ^ 104) = finite (6084722881095501 / 2 ^ 104) :=
  nearest_of_mantissa _ 6084722881095501 (-52) (by norm_num) (by norm_num) (by norm_num)
    (by norm_num) (by norm_num)

/-- The difference of the tolerance and a quarter of its spacing rounds to the tolerance. -/
theorem nearest_below_eps :
    nearest (6084722881095501 / 2 ^ 104 - 1 / 2 ^ 106) = finite (6084722881095501 / 2 ^ 104) := by
  have h := nearest_eq (6084722881095501 / 2 ^ 104 - 1 / 2 ^ 106) (-52) 6084722881095501
    (by norm_num) (by norm_num) (by norm_num)
    (round_half_even_eq _ _ (by norm_num) (by norm_num) (by norm_num)) (by norm_num)
  rw [h]
  norm_num

end Double

namespace binary64

theorem eps_3e_16_is_binary64 : eps_3e_16.is_binary64 :=
  Double.nearest_eps

/-- The unit interval passes the two interval checks. -/
theorem accepted_unit : accepted eps_3e_16 (Double.finite 0, Double.finite 1) = true :=
  accepted_of_le _ 0 1 (by norm_num) Double.nearest_eps (by norm_num)

/-- The interval `(2^-60 + 2^-106, eps + 2^-60)` of binary64 endpoints: its exact length is
below the tolerance and its computed length is the tolerance. -/
theorem accepted_boundary :
    accepted eps_3e_16
      (Double.finite (1 / 2 ^ 60 + 1 / 2 ^ 106),
        Double.finite (6084722881095501 / 2 ^ 104 + 1 / 2 ^ 60)) = true := by
  rw [accepted_iff]
  have hd : (1 / 2 ^ 60 + 1 / 2 ^ 106 : ℚ) + -(6084722881095501 / 2 ^ 104 + 1 / 2 ^ 60)
      = -(6084722881095501 / 2 ^ 104 - 1 / 2 ^ 106) := by ring
  constructor
  · show Double.lt (Double.abs (Double.add (Double.finite (1 / 2 ^ 60 + 1 / 2 ^ 106))
      (Double.neg (Double.finite (6084722881095501 / 2 ^ 104 + 1 / 2 ^ 60))))) eps_3e_16 = false
    simp only [Double.neg, Double.add]
    rw [hd, Double.nearest_neg, Double.nearest_below_eps]
    simp only [Double.neg, Double.abs, eps_3e_16, Double.lt, abs_neg]
    rw [abs_of_nonneg (by norm_num)]
    simp
  · show Double.lt (Double.finite (6084722881095501 / 2 ^ 104 + 1 / 2 ^ 60))
      (Double.finite (1 / 2 ^ 60 + 1 / 2 ^ 106)) = false
    simp only [Double.lt]
    norm_num

theorem boundary_is_binary64 :
    (Double.finite (1 / 2 ^ 60 + 1 / 2 ^ 106)).is_binary64 ∧
    (Double.finite (6084722881095501 / 2 ^ 104 + 1 / 2 ^ 60)).is_binary64 :=
  ⟨Double.nearest_of_mantissa _ 4503599627370560 (-60) (by norm_num) (by norm_num)
      (by norm_num) (by norm_num) (by norm_num),
    Double.nearest_of_mantissa _ 6102315067139917 (-52) (by norm_num) (by norm_num)
      (by norm_num) (by norm_num) (by norm_num)⟩

end binary64

/-! ## Claims on the binary64 reading -/

namespace binary64

/-- The coordinates `build` stores on rank 0 for accepted parameters. -/
theorem build_root_stored (eps : Double) (nx : Nat) (x : Double × Double)
    (hnx : 1 ≤ nx) (hsz : nx < 2 ^ 64 - 1) (hx : accepted eps x = true) :
    ∃ mesh, build eps 0 nx x = Outcome.distributed mesh ∧
      mesh.geom.rows = nx + 1 ∧ mesh.geom.cols = 1 ∧
      mesh.topo.rows = nx ∧ mesh.topo.cols = 2 ∧
      (∀ i, i ≤ nx → mesh.geom.coeff i 0 = vertex nx x i) ∧
      (∀ i, i < nx → mesh.topo.row i = [int_of_size_t i, int_of_size_t (i + 1)]) := by
  refine ⟨_, build_root_passes eps nx x hnx hx, ?_⟩
  obtain ⟨g1, g2, g3⟩ := create_vertices_stored nx x.1 (step nx x) hsz
  obtain ⟨t1, t2, t3⟩ := create_intervals_spec nx
  refine ⟨g1, g2, t1, t2, g3, ?_⟩
  intro i hi
  obtain ⟨c0, c1⟩ := t3 i hi
  rw [EigenMatrix.row_two _ t2, c0, c1]

end binary64

/-- C4 as stated fails: the binary64 endpoints `a = 2^-60 + 2^-106`, `b = eps + 2^-60` have
`|a - b| < DOLFIN_EPS` exactly, but the computed `std::abs(a - b)` is the tolerance itself,
and with `nx = 1` `build` raises nothing and builds the mesh. -/
theorem build_binary64_accepts_below_eps :
    (Double.finite (1 / 2 ^ 60 + 1 / 2 ^ 106)).is_binary64 ∧
    (Double.finite (6084722881095501 / 2 ^ 104 + 1 / 2 ^ 60)).is_binary64 ∧
    |(1 / 2 ^ 60 + 1 / 2 ^ 106 : ℚ) - (6084722881095501 / 2 ^ 104 + 1 / 2 ^ 60)|
      < 6084722881095501 / 2 ^ 104 ∧
    ∃ mesh, binary64.build binary64.eps_3e_16 0 1
        (Double.finite (1 / 2 ^ 60 + 1 / 2 ^ 106),
          Double.finite (6084722881095501 / 2 ^ 104 + 1 / 2 ^ 60))
        = binary64.Outcome.distributed mesh := by
  refine ⟨binary64.boundary_is_binary64.1, binary64.boundary_is_binary64.2, ?_,
    _, binary64.build_root_passes _ 1 _ (by norm_num) binary64.accepted_boundary⟩
  rw [abs_sub_comm, abs_of_nonneg (by norm_num)]
  norm_num

/-- C4 (amended): on the root participant, whenever the computed value of
`std::abs(a - b)`, the rounded difference, is below `DOLFIN_EPS`, for every subdivision
count (0 included) `build` raises `InvalidDimension`; no buffer reaches the distributor. -/
theorem build_binary64_zero_length (eps : Double) (nx : Nat) (x : Double × Double)
    (h : Double.lt (Double.abs (Double.sub x.1 x.2)) eps = true) :
    binary64.build eps 0 nx x = binary64.Outcome.raised Error.InvalidDimension ∧
      ∀ mesh, binary64.build eps 0 nx x ≠ binary64.Outcome.distributed mesh := by
  have hb : binary64.build eps 0 nx x = binary64.Outcome.raised Error.InvalidDimension := by
    rw [binary64.build_root_eq]
    unfold binary64.build_after_quotient
    rw [if_pos h]
  refine ⟨hb, ?_⟩
  intro mesh hm
  rw [hb] at hm
  cases hm

/-- C4 (amended), at `nx = 0` on the interval `(1, 1)`. -/
theorem build_binary64_zero_length_witness :
    Double.lt (Double.abs (Double.sub (Double.finite 1) (Double.finite 1))) binary64.eps_3e_16
      = true ∧
    binary64.build binary64.eps_3e_16 0 0 (Double.finite 1, Double.finite 1)
      = binary64.Outcome.raised Error.InvalidDimension := by
  have h : Double.lt (Double.abs (Double.sub (Double.finite 1) (Double.finite 1)))
      binary64.eps_3e_16 = true := by
    simp only [Double.sub, Double.neg, Double.add, add_neg_cancel, Double.nearest_zero,
      Double.abs, abs_zero, binary64.eps_3e_16, Double.lt]
    norm_num
  exact ⟨h, (build_binary64_zero_length binary64.eps_3e_16 0
    (Double.finite 1, Double.finite 1) h).1⟩

/-- C8: for every valid parameter set (`nx ≥ 1` with `nx + 1` a `size_t`, an interval that
passes the two checks, which every interval with `b - a ≥ DOLFIN_EPS` does) the buffer
passed to the distributor is fully populated on rank 0 (`nx + 1` vertices of width 1 and
`nx` cells of width 2, every coefficient written by the loops) and empty on every other
rank (0 vertices of width 1, 0 cells of width 2); on no rank is it partially populated. -/
theorem build_binary64_full_or_empty (eps : Double) (rank nx : Nat) (x : Double × Double)
    (hnx : 1 ≤ nx) (hsz : nx < 2 ^ 64 - 1) (hx : binary64.accepted eps x = true) :
    ∃ mesh, binary64.build eps rank nx x = binary64.Outcome.distributed mesh ∧
      (rank = 0 → mesh.geom.rows = nx + 1 ∧ mesh.geom.cols = 1 ∧
        mesh.topo.rows = nx ∧ mesh.topo.cols = 2 ∧
        (∀ i, i ≤ nx → mesh.geom.coeff i 0 = binary64.vertex nx x i) ∧
        (∀ i, i < nx → mesh.topo.row i = [int_of_size_t i, int_of_size_t (i + 1)])) ∧
      (rank ≠ 0 → mesh.geom.rows = 0 ∧ mesh.geom.cols = 1 ∧
        mesh.topo.rows = 0 ∧ mesh.topo.cols = 2) ∧
      ¬ mesh.partially_populated := by
  by_cases hr : rank = 0
  · subst hr
    obtain ⟨mesh, hb, g1, g2, t1, t2, hg, ht⟩ := binary64.build_root_stored eps nx x hnx hsz hx
    refine ⟨mesh, hb, fun _ => ⟨g1, g2, t1, t2, hg, ht⟩, fun h => absurd rfl h, ?_⟩
    unfold binary64.Buffer.partially_populated
    rw [g1, t1]; omega
  · refine ⟨_, binary64.build_nonroot_any eps rank nx x hr, fun h => absurd h hr, fun _ => ?_, ?_⟩
    · exact ⟨rfl, rfl, rfl, rfl⟩
    · unfold binary64.Buffer.partially_populated
      simp [EigenMatrix.alloc]

/-- C8, at `nx = 4` on `(0, 1)`, on rank 0 and on rank 3. -/
theorem build_binary64_full_or_empty_witness :
    (∃ mesh, binary64.build binary64.eps_3e_16 0 4 (Double.finite 0, Double.finite 1)
        = binary64.Outcome.distributed mesh ∧
      mesh.geom.rows = 5 ∧ mesh.topo.rows = 4 ∧ ¬ mesh.partially_populated) ∧
    (∃ mesh, binary64.build binary64.eps_3e_16 3 4 (Double.finite 0, Double.finite 1)
        = binary64.Outcome.distributed mesh ∧
      mesh.geom.rows = 0 ∧ mesh.topo.rows = 0 ∧ ¬ mesh.partially_populated) := by
  obtain ⟨m0, hb0, h0, _, hp0⟩ := build_binary64_full_or_empty binary64.eps_3e_16 0 4
    (Double.finite 0, Double.finite 1) (by norm_num) (by norm_num) binary64.accepted_unit
  obtain ⟨m3, hb3, _, h3, hp3⟩ := build_binary64_full_or_empty binary64.eps_3e_16 3 4
    (Double.finite 0, Double.finite 1) (by norm_num) (by norm_num) binary64.accepted_unit
  obtain ⟨g0, _, t0, _⟩ := h0 rfl
  obtain ⟨g3, _, t3, _⟩ := h3 (by norm_num)
  exact ⟨⟨m0, hb0, g0, t0, hp0⟩, ⟨m3, hb3, g3, t3, hp3⟩⟩

/-- C11 as stated fails: with `nx = 2` the binary64 endpoints `a = 2^-60 + 2^-106`,
`b = eps + 2^-60` have `b - a < DOLFIN_EPS` exactly, yet `build` succeeds on the root: the
checks compare the rounded difference. -/
theorem build_binary64_succeeds_below_eps :
    (Double.finite (1 / 2 ^ 60 + 1 / 2 ^ 106)).is_binary64 ∧
    (Double.finite (6084722881095501 / 2 ^ 104 + 1 / 2 ^ 60)).is_binary64 ∧
    ¬ ((6084722881095501 / 2 ^ 104 : ℚ)
      ≤ (6084722881095501 / 2 ^ 104 + 1 / 2 ^ 60) - (1 / 2 ^ 60 + 1 / 2 ^ 106)) ∧
    ∃ mesh, binary64.build binary64.eps_3e_16 0 2
        (Double.finite (1 / 2 ^ 60 + 1 / 2 ^ 106),
          Double.finite (6084722881095501 / 2 ^ 104 + 1 / 2 ^ 60))
        = binary64.Outcome.distributed mesh ∧
      mesh.geom.rows = 3 ∧ mesh.topo.rows = 2 := by
  refine ⟨binary64.boundary_is_binary64.1, binary64.boundary_is_binary64.2, by norm_num, ?_⟩
  obtain ⟨mesh, hb, g1, _, t1, _⟩ := binary64.build_root_stored binary64.eps_3e_16 2
    (Double.finite (1 / 2 ^ 60 + 1 / 2 ^ 106),
      Double.finite (6084722881095501 / 2 ^ 104 + 1 / 2 ^ 60))
    (by norm_num) (by norm_num) binary64.accepted_boundary
  exact ⟨mesh, hb, g1, t1⟩

/-- C11 (amended): on the root participant, for `nx` below `2^64 - 1`, the outcome of
`build` is fixed by the first failing check, in the order zero length, negative length,
subdivision count, each check made on the computed binary64 values: `InvalidDimension` if
the computed `std::abs(a - b)` is below `DOLFIN_EPS`; otherwise `InvalidOrdering` if
`b < a`; otherwise `InvalidSubdivisionCount` if `nx = 0`; otherwise it succeeds.  Hence it
succeeds exactly when `nx ≥ 1` and the interval passes the two checks, and with `nx = 0`
the outcome is the same whatever the value of the quotient computed before the checks. -/
theorem build_binary64_first_failing_check (eps : Double) (nx : Nat) (x : Double × Double)
    (hsz : nx < 2 ^ 64 - 1) :
    (Double.lt (Double.abs (Double.sub x.1 x.2)) eps = true →
      binary64.build eps 0 nx x = binary64.Outcome.raised Error.InvalidDimension) ∧
    (Double.lt (Double.abs (Double.sub x.1 x.2)) eps = false → Double.lt x.2 x.1 = true →
      binary64.build eps 0 nx x = binary64.Outcome.raised Error.InvalidOrdering) ∧
    (Double.lt (Double.abs (Double.sub x.1 x.2)) eps = false → Double.lt x.2 x.1 = false →
      nx = 0 →
      binary64.build eps 0 nx x = binary64.Outcome.raised Error.InvalidSubdivisionCount) ∧
    (Double.lt (Double.abs (Double.sub x.1 x.2)) eps = false → Double.lt x.2 x.1 = false →
      nx ≠ 0 →
      ∃ mesh, binary64.build eps 0 nx x = binary64.Outcome.distributed mesh ∧
        mesh.geom.rows = nx + 1 ∧ mesh.topo.rows = nx) ∧
    ((∃ mesh, binary64.build eps 0 nx x = binary64.Outcome.distributed mesh) ↔
      (1 ≤ nx ∧ binary64.accepted eps x = true)) ∧
    binary64.build eps 0 nx x
      = binary64.build_after_quotient eps nx x.1 x.2
          (Double.div (Double.sub x.2 x.1) (Double.of_size_t nx)) ∧
    (∀ q q0 : Double,
      binary64.build_after_quotient eps 0 x.1 x.2 q
        = binary64.build_after_quotient eps 0 x.1 x.2 q0) := by
  have c1 : Double.lt (Double.abs (Double.sub x.1 x.2)) eps = true →
      binary64.build eps 0 nx x = binary64.Outcome.raised Error.InvalidDimension := by
    intro h
    rw [binary64.build_root_eq]
    unfold binary64.build_after_quotient
    rw [if_pos h]
  have c2 : Double.lt (Double.abs (Double.sub x.1 x.2)) eps = false →
      Double.lt x.2 x.1 = true →
      binary64.build eps 0 nx x = binary64.Outcome.raised Error.InvalidOrdering := by
    intro h1 h2
    rw [binary64.build_root_eq]
    unfold binary64.build_after_quotient
    simp only [h1, h2, if_true, if_false, Bool.false_eq_true]
  have c3 : Double.lt (Double.abs (Double.sub x.1 x.2)) eps = false →
      Double.lt x.2 x.1 = false → nx = 0 →
      binary64.build eps 0 nx x = binary64.Outcome.raised Error.InvalidSubdivisionCount := by
    intro h1 h2 h3
    subst h3
    rw [binary64.build_root_eq]
    unfold binary64.build_after_quotient
    simp only [h1, h2, if_true, if_false, Bool.false_eq_true, Nat.lt_one_iff]
  have c4 : Double.lt (Double.abs (Double.sub x.1 x.2)) eps = false →
      Double.lt x.2 x.1 = false → nx ≠ 0 →
      ∃ mesh, binary64.build eps 0 nx x = binary64.Outcome.distributed mesh ∧
        mesh.geom.rows = nx + 1 ∧ mesh.topo.rows = nx := by
    intro h1 h2 h3
    obtain ⟨mesh, hb, g1, _, t1, _⟩ := binary64.build_root_stored eps nx x (by omega) hsz
      ((binary64.accepted_iff eps x).mpr ⟨h1, h2⟩)
    exact ⟨mesh, hb, g1, t1⟩
  refine ⟨c1, c2, c3, c4, ?_, binary64.build_root_eq eps nx x, ?_⟩
  · constructor
    · rintro ⟨mesh, hm⟩
      cases h1 : Double.lt (Double.abs (Double.sub x.1 x.2)) eps with
      | true => rw [c1 h1] at hm; cases hm
      | false =>
        cases h2 : Double.lt x.2 x.1 with
        | true => rw [c2 h1 h2] at hm; cases hm
        | false =>
          by_cases h3 : nx = 0
          · rw [c3 h1 h2 h3] at hm; cases hm
          · exact ⟨by omega, (binary64.accepted_iff eps x).mpr ⟨h1, h2⟩⟩
    · rintro ⟨hnx, hx⟩
      exact ⟨_, binary64.build_root_passes eps nx x hnx hx⟩
  · intro q q0
    unfold binary64.build_after_quotient
    cases h1 : Double.lt (Double.abs (Double.sub x.1 x.2)) eps with
    | true => simp only [if_true]
    | false =>
      cases h2 : Double.lt x.2 x.1 with
      | true => simp only [if_true, if_false, Bool.false_eq_true]
      | false => simp only [if_true, if_false, Bool.false_eq_true, Nat.lt_one_iff]

/-- C11 (amended), at `nx = 4` on `(0, 1)`: `build` succeeds. -/
theorem build_binary64_first_failing_check_witness :
    (4 : Nat) < 2 ^ 64 - 1 ∧
    ∃ mesh, binary64.build binary64.eps_3e_16 0 4 (Double.finite 0, Double.finite 1)
      = binary64.Outcome.distributed mesh :=
  ⟨by norm_num,
    (build_binary64_first_failing_check binary64.eps_3e_16 4 (Double.finite 0, Double.finite 1)
      (by norm_num)).2.2.2.2.1.mpr ⟨by norm_num, binary64.accepted_unit⟩⟩

/-! ## Order of the stored coordinates -/

namespace Double

end Double

namespace binary64

end binary64

end dolfin
